import Mathlib

/-!
Shallow embedding of the Sanad link validation engine of `src/app.py`
(perawi_validator): the pair link evaluator (lines 128-156), the chain
validation loop (lines 121-156), and the narrator resolver
`search_narrators` (lines 50-57) together with the parts of Python's
`difflib` (`SequenceMatcher.ratio`, `get_close_matches`) that the fuzzy
fallback uses.  Machine reals are modelled exactly: `difflib` ratios are
ratios of natural numbers, embedded as `ℚ`; for the short strings involved
the IEEE-double comparisons of the original agree with the exact rational
ones.
-/

/-- One cleaned narrator row, as produced by `load_data` (src/app.py lines
9-40): `name_letters` is the canonical name, `birth_greg`/`death_greg` the
lifespan, `cities` the parsed `places_of_stay`, `scholar_index` optional
(missing = NaN in the dataframe, which never equals an integer), and
`students_index` / `teachers_index` the parsed integer lists. -/
structure NarratorRecord where
  name_letters : String
  birth_greg : Int
  death_greg : Int
  cities : List String
  scholar_index : Option Int
  students_index : List Int
  teachers_index : List Int
  deriving DecidableEq, Repr

/-- Membership of an optional scholar index in an index list: Python
`idx in lst` where `idx` is NaN (an absent `scholar_index`) is `False`,
since the parsed lists contain only integers. -/
def idxMem (o : Option Int) (l : List Int) : Bool :=
  match o with
  | none => false
  | some v => l.contains v

/-- `is_teacher` (src/app.py line 137). -/
def is_teacher (ra rb : NarratorRecord) : Bool :=
  idxMem rb.scholar_index ra.students_index || idxMem ra.scholar_index rb.teachers_index

/-- `is_student` (src/app.py line 138). -/
def is_student (ra rb : NarratorRecord) : Bool :=
  idxMem rb.scholar_index ra.teachers_index || idxMem ra.scholar_index rb.students_index

/-- Temporal overlap (src/app.py lines 128-131). -/
def overlap_years (ra rb : NarratorRecord) : Int :=
  max 0 (min ra.death_greg rb.death_greg - max ra.birth_greg rb.birth_greg)

/-- Geographic overlap `common` (src/app.py line 133):
`set(ra['cities']).intersection(rb['cities'])`. -/
def common (ra rb : NarratorRecord) : Finset String :=
  ra.cities.toFinset ∩ rb.cities.toFinset

/-- Link label (src/app.py lines 140-145). -/
def link_label (ra rb : NarratorRecord) : String :=
  if is_teacher ra rb then ra.name_letters ++ " is the teacher of " ++ rb.name_letters
  else if is_student ra rb then ra.name_letters ++ " is the student of " ++ rb.name_letters
  else "None"

/-- Status resolution (src/app.py lines 147-156); first matching rule wins.
`elif overlap_years >= 1 and common` tests `common` for non-emptiness. -/
def status (ra rb : NarratorRecord) : String :=
  if is_teacher ra rb || is_student ra rb then "🟢 Silsilah muttasilah"
  else if 10 ≤ overlap_years ra rb then "✅ Strong"
  else if 1 ≤ overlap_years ra rb ∧ common ra rb ≠ ∅ then "✅ Strong (Geo)"
  else if 1 ≤ overlap_years ra rb then "🟡 Weak"
  else "❌ None"

/-- The verdict rendered for one consecutive pair (src/app.py lines
128-168). -/
structure LinkVerdict where
  overlap_years : Int
  shared_cities : Finset String
  link_label : String
  status : String
  deriving DecidableEq

/-- Pair link evaluator: everything the loop body computes for the pair
`(ra, rb)` of one card (src/app.py lines 125-156). -/
def evaluate (ra rb : NarratorRecord) : LinkVerdict :=
  ⟨overlap_years ra rb, common ra rb, link_label ra rb, status ra rb⟩

/-- `lookup = narrators_df.set_index('name_letters'); lookup.loc[nm]`
(src/app.py lines 123, 125-126): the row whose `name_letters` equals `nm`;
`none` models the `KeyError` that `.loc` raises on a missing key. -/
def lookupNarrator (repo : List NarratorRecord) (nm : String) : Option NarratorRecord :=
  repo.find? (fun r => r.name_letters == nm)

/-- The chain-validation loop (src/app.py lines 121-156): one verdict per
consecutive pair `zip(chain, chain[1:])`, in order; a failed lookup raises
`KeyError` and aborts the whole run (`none`).  Chains shorter than 2
produce no cards (the loop body never runs). -/
def validate_chain (repo : List NarratorRecord) : List String → Option (List LinkVerdict)
  | a :: b :: rest => do
    let ra ← lookupNarrator repo a
    let rb ← lookupNarrator repo b
    let vs ← validate_chain repo (b :: rest)
    pure (evaluate ra rb :: vs)
  | _ => some []

/-- The consecutive pairs `zip(chain, chain[1:])` (src/app.py line 124). -/
def chainPairs (ids : List String) : List (String × String) :=
  ids.zip ids.tail

/-- Look up both endpoints of one pair and evaluate it; `none` when either
lookup fails. -/
def pairEval (repo : List NarratorRecord) (p : String × String) : Option LinkVerdict :=
  (lookupNarrator repo p.1).bind fun ra =>
    (lookupNarrator repo p.2).map fun rb => evaluate ra rb

/-- Python substring containment `needle in hay`, on lists of characters. -/
def listContains (needle hay : List Char) : Bool :=
  (List.range (hay.length + 1)).any (fun k => (hay.drop k).take needle.length == needle)

/-- Python `s.lower()` as a character list: lowercase each character (the
ASCII case mapping, which covers the data at hand). -/
def lowerStr (s : String) : List Char :=
  s.toList.map Char.toLower

/-- Python `s.strip()`: drop leading and trailing whitespace. -/
def pyStrip (l : List Char) : List Char :=
  ((l.dropWhile Char.isWhitespace).reverse.dropWhile Char.isWhitespace).reverse

/-- The normalized query `q = query.lower().strip()` (src/app.py line 51). -/
def normQuery (query : String) : List Char :=
  pyStrip (lowerStr query)

/-- The substring pass of `search_narrators` (src/app.py lines 51-52):
`[c for c in choices if q in c.lower()]`. -/
def substrPass (query : String) (choices : List String) : List String :=
  choices.filter (fun c => listContains (normQuery query) (lowerStr c))

/-- The value the `j2len` dictionary of
`difflib.SequenceMatcher.find_longest_match` associates to position `j` at
outer iteration `i`: the length of the run of equal characters ending at
positions `i` of `a` and `j` of `b` that stays inside the window (never
reaching below `alo` in `a` nor below `blo` in `b`). -/
def runlen (a b : List Char) (alo blo : ℕ) : ℕ → ℕ → ℕ
  | 0, j =>
    match a[0]?, b[j]? with
    | some ca, some cb => if ca = cb then 1 else 0
    | _, _ => 0
  | i + 1, j =>
    match a[i + 1]?, b[j]? with
    | some ca, some cb =>
      if ca = cb then
        (if alo ≤ i ∧ blo < j then runlen a b alo blo i (j - 1) else 0) + 1
      else 0
    | _, _ => 0

/-- `difflib.SequenceMatcher.find_longest_match` on the window
`a[alo:ahi]` / `b[blo:bhi]`, without the junk machinery (no junk function
is installed, and autojunk only activates for sequences of 200 or more
elements, far beyond any query here; with both junk sets empty the final
extension loops of the original are no-ops).  Returns
`(besti, bestj, bestsize)`; ties resolve exactly as in the original: the
first maximum in increasing `(i, j)`, because the update is guarded by a
strict comparison. -/
def flm (a b : List Char) (alo ahi blo bhi : ℕ) : ℕ × ℕ × ℕ :=
  (List.range' alo (ahi - alo)).foldl (fun best i =>
    (List.range' blo (bhi - blo)).foldl (fun best j =>
      match a[i]?, b[j]? with
      | some ca, some cb =>
        if ca = cb then
          let k := runlen a b alo blo i j
          if best.2.2 < k then (i + 1 - k, j + 1 - k, k) else best
        else best
      | _, _ => best) best) (alo, blo, 0)

/-- Total size of the matching blocks of
`difflib.SequenceMatcher.get_matching_blocks` on the given window: the
longest match splits the window and the two sides are processed
recursively; the adjacent-block merge of the original preserves this sum.
The `fuel` argument is a structural termination device only: every
recursive call strictly shrinks `(ahi - alo) + (bhi - blo)`, so any fuel
above that quantity yields the same value (`matchesTotalF_congr`). -/
def matchesTotalF (a b : List Char) : ℕ → ℕ → ℕ → ℕ → ℕ → ℕ
  | 0, _, _, _, _ => 0
  | fuel + 1, alo, ahi, blo, bhi =>
    let t := flm a b alo ahi blo bhi
    if t.2.2 = 0 then 0
    else
      matchesTotalF a b fuel alo t.1 blo t.2.1 + t.2.2 +
        matchesTotalF a b fuel (t.1 + t.2.2) ahi (t.2.1 + t.2.2) bhi

/-- Total matching size over the whole sequences, with provably sufficient
fuel. -/
def matchesTotal (a b : List Char) : ℕ :=
  matchesTotalF a b (a.length + b.length + 1) 0 a.length 0 b.length

/-- `difflib.SequenceMatcher(None, x, word).ratio()` as an unnormalized
fraction `(2*M, T)` where `M` is the total matching size and `T` the summed
length, and `(1, 1)` — the value 1.0 — for two empty sequences
(`_calculate_ratio`).  The denominator is always positive. -/
def ratioPair (x word : List Char) : ℕ × ℕ :=
  if x.length + word.length = 0 then (1, 1)
  else (2 * matchesTotal x word, x.length + word.length)

/-- The ratio as an exact rational, in place of the original IEEE double. -/
def ratioQ (x word : List Char) : ℚ :=
  ((ratioPair x word).1 : ℚ) / ((ratioPair x word).2 : ℚ)

/-- The cutoff test `s.ratio() >= cutoff` of `get_close_matches`, by exact
cross-multiplication against the positive denominator (`ratioGeB_iff`
shows this is the rational comparison `cutoff ≤ ratioQ x word`). -/
def ratioGeB (cutoff : ℚ) (x word : List Char) : Bool :=
  decide (cutoff.num * ((ratioPair x word).2 : ℤ) ≤
    ((ratioPair x word).1 : ℤ) * (cutoff.den : ℤ))

/-- Python string comparison `x < y`: lexicographic on code points. -/
def listLtB : List Char → List Char → Bool
  | [], [] => false
  | [], _ :: _ => true
  | _ :: _, [] => false
  | c :: cs, d :: ds => if c < d then true else if d < c then false else listLtB cs ds

/-- The descending order `heapq.nlargest` induces on `(ratio, candidate)`
pairs: larger ratio first (compared exactly by cross-multiplication of the
positive denominators, which mirrors the rational order — `pairLt_iff`),
ties by the lexicographically larger string (Python tuple comparison),
equal pairs keeping list order (stability). -/
def tupleDesc (p q : (ℕ × ℕ) × List Char) : Prop :=
  q.1.1 * p.1.2 < p.1.1 * q.1.2 ∨
    (p.1.1 * q.1.2 = q.1.1 * p.1.2 ∧ listLtB p.2 q.2 = false)

instance : DecidableRel tupleDesc := fun p q => by
  unfold tupleDesc
  infer_instance

/-- `difflib.get_close_matches(word, possibilities, n, cutoff)`: keep the
candidates whose ratio reaches the cutoff, take the `n` largest under the
`(ratio, string)` order, return the strings.  The original's
`real_quick_ratio`/`quick_ratio` pre-tests are upper bounds of `ratio`, so
they do not change the result; `heapq.nlargest` is the stable descending
sort truncated to `n`, realised here by the stable `insertionSort`. -/
def getCloseMatches (word : List Char) (possibilities : List (List Char)) (n : ℕ) (cutoff : ℚ) :
    List (List Char) :=
  let scored := possibilities.filterMap (fun x =>
    if ratioGeB cutoff x word then some (ratioPair x word, x) else none)
  ((List.insertionSort tupleDesc scored).take n).map Prod.snd

/-- The cutoff 0.7 of `search_narrators`, written as an explicit reduced
fraction so that its numerator and denominator are definitional
projections (`cutoff07_eq`: it is the rational `7/10`). -/
def cutoff07 : ℚ := ⟨7, 10, by norm_num, by norm_num⟩

/-- `search_narrators` (src/app.py lines 50-57).  The final comprehension
`[choices[i] for i, lc in enumerate(lowered) if lc in fuzzy]` is
`choices.filter (fun c => fuzzy.contains (lowerStr c))` because
`lowered[i] = choices[i].lower()` pointwise. -/
def searchNarrators (query : String) (choices : List String) (cutoff : ℚ) (n : ℕ) :
    List String :=
  let substr := substrPass query choices
  if substr.isEmpty then
    let fuzzy := getCloseMatches (normQuery query) (choices.map lowerStr) n cutoff
    choices.filter (fun c => fuzzy.contains (lowerStr c))
  else substr.take n

/-! ### Supporting lemmas -/

/-- A run ending at `(i, j)` fits between `alo` and `i`, and between `blo`
and `j`. -/
theorem runlen_le (a b : List Char) (alo blo : ℕ) :
    ∀ i j, alo ≤ i → blo ≤ j →
      runlen a b alo blo i j ≤ min (i + 1 - alo) (j + 1 - blo) := by
  intro i
  induction i with
  | zero =>
    intro j hi hj
    simp only [runlen]
    split
    · split <;> omega
    · omega
  | succ i ih =>
    intro j hi hj
    simp only [runlen]
    split
    · split
      · split
        · rename_i hgo
          have := ih (j - 1) hgo.1 (by omega)
          omega
        · omega
      · omega
    · omega

/-- Fold invariant, specialised to what `flm_bounds` needs. -/
theorem foldl_invariant {α β : Type _} (P : β → Prop) (f : β → α → β) :
    ∀ (l : List α) (init : β), P init →
      (∀ acc x, x ∈ l → P acc → P (f acc x)) → P (l.foldl f init) := by
  intro l
  induction l with
  | nil => intro init h _; exact h
  | cons x xs ih =>
    intro init h hstep
    exact ih _ (hstep _ _ (List.mem_cons_self _ _) h)
      (fun acc y hy hP => hstep _ _ (List.mem_cons_of_mem _ hy) hP)

/-- When `find_longest_match` reports a non-trivial block, the block lies
inside the window. -/
theorem flm_bounds (a b : List Char) (alo ahi blo bhi : ℕ)
    (h : (flm a b alo ahi blo bhi).2.2 ≠ 0) :
    alo ≤ (flm a b alo ahi blo bhi).1 ∧
      (flm a b alo ahi blo bhi).1 + (flm a b alo ahi blo bhi).2.2 ≤ ahi ∧
      blo ≤ (flm a b alo ahi blo bhi).2.1 ∧
      (flm a b alo ahi blo bhi).2.1 + (flm a b alo ahi blo bhi).2.2 ≤ bhi := by
  refine foldl_invariant
    (fun t : ℕ × ℕ × ℕ => t.2.2 ≠ 0 →
      alo ≤ t.1 ∧ t.1 + t.2.2 ≤ ahi ∧ blo ≤ t.2.1 ∧ t.2.1 + t.2.2 ≤ bhi)
    _ _ _ (fun h0 => absurd rfl h0) ?_ h
  intro acc i hi hacc
  have hi' : alo ≤ i ∧ i < ahi := by
    rw [List.mem_range'_1] at hi
    omega
  refine foldl_invariant
    (fun t : ℕ × ℕ × ℕ => t.2.2 ≠ 0 →
      alo ≤ t.1 ∧ t.1 + t.2.2 ≤ ahi ∧ blo ≤ t.2.1 ∧ t.2.1 + t.2.2 ≤ bhi)
    _ _ _ hacc ?_
  intro acc' j hj hacc'
  have hj' : blo ≤ j ∧ j < bhi := by
    rw [List.mem_range'_1] at hj
    omega
  split
  · split
    · dsimp only
      split
      · rename_i hlt
        intro _
        have hrl := runlen_le a b alo blo i j hi'.1 hj'.1
        dsimp only
        omega
      · exact hacc'
    · exact hacc'
  · exact hacc'

/-- The fuel of `matchesTotalF` is irrelevant once it exceeds the size of
the window, so `matchesTotal`'s choice of fuel is canonical. -/
theorem matchesTotalF_congr (a b : List Char) :
    ∀ fuel fuel' alo ahi blo bhi, (ahi - alo) + (bhi - blo) < fuel →
      (ahi - alo) + (bhi - blo) < fuel' →
      matchesTotalF a b fuel alo ahi blo bhi = matchesTotalF a b fuel' alo ahi blo bhi := by
  intro fuel
  induction fuel with
  | zero => intro fuel' alo ahi blo bhi h _; omega
  | succ fuel ih =>
    intro fuel' alo ahi blo bhi h h'
    cases fuel' with
    | zero => omega
    | succ fuel' =>
      simp only [matchesTotalF]
      split
      · rfl
      · rename_i hk
        have hb := flm_bounds a b alo ahi blo bhi hk
        rw [ih fuel' alo (flm a b alo ahi blo bhi).1 blo (flm a b alo ahi blo bhi).2.1
            (by omega) (by omega),
          ih fuel' ((flm a b alo ahi blo bhi).1 + (flm a b alo ahi blo bhi).2.2) ahi
            ((flm a b alo ahi blo bhi).2.1 + (flm a b alo ahi blo bhi).2.2) bhi
            (by omega) (by omega)]

/-- Any sufficient fuel computes `matchesTotal`. -/
theorem matchesTotalF_eq_matchesTotal (a b : List Char) (fuel : ℕ)
    (h : a.length + b.length < fuel) :
    matchesTotalF a b fuel 0 a.length 0 b.length = matchesTotal a b :=
  matchesTotalF_congr a b fuel (a.length + b.length + 1) 0 a.length 0 b.length
    (by omega) (by omega)

/-- The denominator of a ratio is positive. -/
theorem ratioPair_den_pos (x word : List Char) : 0 < (ratioPair x word).2 := by
  unfold ratioPair
  split
  · exact Nat.one_pos
  · rename_i hne
    dsimp only
    omega

/-- Cross-multiplication against positive denominators mirrors the
rational order used by `heapq.nlargest`. -/
theorem pairLt_iff (p q : ℕ × ℕ) (hp : 0 < p.2) (hq : 0 < q.2) :
    q.1 * p.2 < p.1 * q.2 ↔ ((q.1 : ℚ) / (q.2 : ℚ) < (p.1 : ℚ) / (p.2 : ℚ)) := by
  rw [div_lt_div_iff₀ (by exact_mod_cast hq) (by exact_mod_cast hp)]
  exact_mod_cast Iff.rfl

/-- The executable cutoff test is the rational comparison
`cutoff ≤ ratioQ x word`. -/
theorem ratioGeB_iff (cutoff : ℚ) (x word : List Char) :
    ratioGeB cutoff x word = true ↔ cutoff ≤ ratioQ x word := by
  unfold ratioGeB ratioQ
  rw [decide_eq_true_iff]
  have hpos : (0 : ℚ) < ((ratioPair x word).2 : ℚ) := by
    exact_mod_cast ratioPair_den_pos x word
  have hden : (0 : ℚ) < (cutoff.den : ℚ) := by exact_mod_cast cutoff.pos
  have hc : cutoff = (cutoff.num : ℚ) / (cutoff.den : ℚ) := (Rat.num_div_den cutoff).symm
  constructor
  · intro h
    rw [le_div_iff₀ hpos, hc, div_mul_eq_mul_div, div_le_iff₀ hden]
    have h' : ((cutoff.num : ℚ)) * ((ratioPair x word).2 : ℚ) ≤
        ((ratioPair x word).1 : ℚ) * (cutoff.den : ℚ) := by exact_mod_cast h
    linarith
  · intro h
    rw [le_div_iff₀ hpos, hc, div_mul_eq_mul_div, div_le_iff₀ hden] at h
    exact_mod_cast h

/-- The cutoff constant is the rational `7/10`. -/
theorem cutoff07_eq : cutoff07 = 7/10 := by
  have h := (Rat.num_div_den cutoff07).symm
  rw [h]
  have hn : cutoff07.num = 7 := rfl
  have hd : cutoff07.den = 10 := rfl
  rw [hn, hd]
  norm_num

/-- Every string returned by `get_close_matches` scored at least the
cutoff. -/
theorem mem_getCloseMatches {word : List Char} {poss : List (List Char)} {n : ℕ} {cutoff : ℚ}
    {x : List Char} (hx : x ∈ getCloseMatches word poss n cutoff) :
    cutoff ≤ ratioQ x word := by
  unfold getCloseMatches at hx
  simp only [List.mem_map] at hx
  obtain ⟨p, hp, hpx⟩ := hx
  have hp' : p ∈ List.insertionSort tupleDesc (poss.filterMap (fun x =>
      if ratioGeB cutoff x word then some (ratioPair x word, x) else none)) :=
    List.mem_of_mem_take hp
  have hp'' := (List.perm_insertionSort tupleDesc _).mem_iff.mp hp'
  rw [List.mem_filterMap] at hp''
  obtain ⟨y, _, hy⟩ := hp''
  by_cases hc : ratioGeB cutoff y word = true
  · rw [if_pos hc, Option.some_inj] at hy
    have hyx : y = x := by rw [← hpx, ← hy]
    rw [← hyx]
    exact (ratioGeB_iff cutoff y word).mp hc
  · rw [if_neg hc] at hy
    exact absurd hy (by simp)

/-- The empty needle is contained in every haystack (Python: `"" in s` is
`True`). -/
theorem listContains_nil (hay : List Char) : listContains [] hay = true := by
  unfold listContains
  rw [List.any_eq_true]
  exact ⟨0, by simp, by simp⟩

/-- Unfolding of the chain loop on a chain of length at least 2. -/
theorem validate_chain_cons (repo : List NarratorRecord) (a b : String) (rest : List String) :
    validate_chain repo (a :: b :: rest) =
      (lookupNarrator repo a).bind fun ra =>
        (lookupNarrator repo b).bind fun rb =>
          (validate_chain repo (b :: rest)).bind fun vs =>
            some (evaluate ra rb :: vs) := rfl

/-- `validate_chain` is exactly the monadic map of `pairEval` over the
consecutive pairs. -/
theorem validate_chain_eq_mapM (repo : List NarratorRecord) :
    ∀ ids, validate_chain repo ids = (chainPairs ids).mapM (pairEval repo) := by
  intro ids
  match ids with
  | [] => rfl
  | [a] => rfl
  | a :: b :: rest =>
    have ih := validate_chain_eq_mapM repo (b :: rest)
    have hcp : chainPairs (a :: b :: rest) = (a, b) :: chainPairs (b :: rest) := rfl
    rw [validate_chain_cons, hcp, List.mapM_cons, ← ih]
    cases ha : lookupNarrator repo a with
    | none => simp [pairEval, ha]
    | some ra =>
      cases hb : lookupNarrator repo b with
      | none => simp [pairEval, ha, hb]
      | some rb =>
        cases validate_chain repo (b :: rest) <;> simp [pairEval, ha, hb]

/-- A monadic map over `Option` succeeds with one output per input when
every element succeeds. -/
theorem mapM_isSome {α β : Type _} (f : α → Option β) :
    ∀ l : List α, (∀ x ∈ l, (f x).isSome) →
      ∃ ys, l.mapM f = some ys ∧ ys.length = l.length := by
  intro l
  induction l with
  | nil => exact fun _ => ⟨[], rfl, rfl⟩
  | cons x xs ih =>
    intro h
    obtain ⟨y, hy⟩ := Option.isSome_iff_exists.mp (h x (List.mem_cons_self _ _))
    obtain ⟨ys, hys, hlen⟩ := ih (fun z hz => h z (List.mem_cons_of_mem _ hz))
    refine ⟨y :: ys, ?_, by simp [hlen]⟩
    simp only [List.mapM_cons, hy, hys]
    rfl

/-- A monadic map over `Option` that succeeds had every element succeed. -/
theorem mapM_some_mem {α β : Type _} (f : α → Option β) :
    ∀ (l : List α) (ys : List β), l.mapM f = some ys → ∀ x ∈ l, (f x).isSome := by
  intro l
  induction l with
  | nil => intro ys _ x hx; exact absurd hx (List.not_mem_nil x)
  | cons z zs ih =>
    intro ys h x hx
    rw [List.mapM_cons] at h
    cases hz : f z with
    | none => rw [hz] at h; exact absurd h (by simp)
    | some y =>
      rw [hz] at h
      cases hzs : zs.mapM f with
      | none => rw [hzs] at h; exact absurd h (by simp)
      | some ys' =>
        rcases List.mem_cons.mp hx with rfl | hx'
        · simp [hz]
        · exact ih ys' hzs x hx'

/-- In a chain of length at least 2, every identifier occurs in some
consecutive pair. -/
theorem mem_chainPairs_of_mem :
    ∀ (ids : List String) (s : String), 2 ≤ ids.length → s ∈ ids →
      ∃ p ∈ chainPairs ids, p.1 = s ∨ p.2 = s := by
  intro ids
  match ids with
  | [] => intro s h _; simp at h
  | [a] => intro s h _; simp at h
  | a :: b :: rest =>
    intro s _ hs
    rcases List.mem_cons.mp hs with rfl | hs'
    · exact ⟨(s, b), by simp [chainPairs], Or.inl rfl⟩
    · cases rest with
      | nil =>
        have : s = b := by simpa using hs'
        exact ⟨(a, s), by simp [chainPairs, this], Or.inr rfl⟩
      | cons c rest' =>
        obtain ⟨p, hp, hps⟩ := mem_chainPairs_of_mem (b :: c :: rest') s (by simp) hs'
        refine ⟨p, ?_, hps⟩
        simp only [chainPairs, List.tail_cons, List.zip_cons_cons, List.mem_cons] at hp ⊢
        exact Or.inr hp

/-! ### Claim theorems -/

/-- Claim C1, counterexample: for the disjoint-lifespan pair E (700-750)
and F (800-850) where F's `teachers_index` holds E's `scholar_index`, the
direct check is true and `overlap_years` is 0, yet the status assigned is
the distinct top value `🟢 Silsilah muttasilah`, not the value `✅ Strong`
that the `overlap_years ≥ 10` rule assigns (shown on pair G, H): the
direct rule does not assign the STRONG status. -/
theorem direct_pair_not_strong :
    (is_teacher ⟨"E", 700, 750, [], some 1, [], []⟩ ⟨"F", 800, 850, [], some 2, [], [1]⟩ ||
      is_student ⟨"E", 700, 750, [], some 1, [], []⟩ ⟨"F", 800, 850, [], some 2, [], [1]⟩) = true ∧
    (evaluate ⟨"E", 700, 750, [], some 1, [], []⟩
      ⟨"F", 800, 850, [], some 2, [], [1]⟩).overlap_years = 0 ∧
    (evaluate ⟨"E", 700, 750, [], some 1, [], []⟩
      ⟨"F", 800, 850, [], some 2, [], [1]⟩).status = "🟢 Silsilah muttasilah" ∧
    (evaluate ⟨"E", 700, 750, [], some 1, [], []⟩
      ⟨"F", 800, 850, [], some 2, [], [1]⟩).status ≠ "✅ Strong" ∧
    (evaluate ⟨"G", 800, 850, [], some 3, [], []⟩
      ⟨"H", 800, 850, [], some 4, [], []⟩).status = "✅ Strong" := by
  decide

/-- Claim C1, amended: whenever the direct check is true (any of the four
index memberships holds), the status is the distinct confirmed-chain-link
value `🟢 Silsilah muttasilah` — the DIRECT status — regardless of
`overlap_years` and `shared_cities`, in particular when lifespans are
disjoint. -/
theorem direct_status_top (ra rb : NarratorRecord)
    (h : (is_teacher ra rb || is_student ra rb) = true) :
    (evaluate ra rb).status = "🟢 Silsilah muttasilah" := by
  simp only [evaluate, status, h, if_true]

/-- Witness for `direct_status_top` on the disjoint-lifespan pair. -/
theorem direct_status_top_w :
    (is_teacher ⟨"E", 700, 750, [], some 1, [], []⟩ ⟨"F", 800, 850, [], some 2, [], [1]⟩ ||
      is_student ⟨"E", 700, 750, [], some 1, [], []⟩ ⟨"F", 800, 850, [], some 2, [], [1]⟩) = true ∧
    (evaluate ⟨"E", 700, 750, [], some 1, [], []⟩
      ⟨"F", 800, 850, [], some 2, [], [1]⟩).status = "🟢 Silsilah muttasilah" :=
  ⟨by decide, direct_status_top _ _ (by decide)⟩

/-- Claim C4, counterexample: A has no `scholar_index` but lists 5 — B's
index — among its students, so the direct check fires even though one side's
`scholar_index` is absent; absence on one side does not force NONE. -/
theorem absent_one_side_direct :
    (NarratorRecord.mk "A" 100 150 [] none [5] []).scholar_index = none ∧
    is_teacher ⟨"A", 100, 150, [], none, [5], []⟩ ⟨"B", 120, 180, [], some 5, [], []⟩ = true ∧
    (evaluate ⟨"A", 100, 150, [], none, [5], []⟩
      ⟨"B", 120, 180, [], some 5, [], []⟩).status = "🟢 Silsilah muttasilah" := by
  decide

/-- Claim C4, amended: only when the `scholar_index` is absent on **both**
records are all four membership tests disabled, so the direct relation is
NONE and the direct status rule cannot fire. -/
theorem absent_both_no_direct (ra rb : NarratorRecord)
    (ha : ra.scholar_index = none) (hb : rb.scholar_index = none) :
    is_teacher ra rb = false ∧ is_student ra rb = false ∧
      (evaluate ra rb).status ≠ "🟢 Silsilah muttasilah" := by
  refine ⟨?_, ?_, ?_⟩
  · simp [is_teacher, idxMem, ha, hb]
  · simp [is_student, idxMem, ha, hb]
  · simp only [evaluate, status, is_teacher, is_student, idxMem, ha, hb, Bool.or_self,
      Bool.false_eq_true, if_false]
    split
    · decide
    · split
      · decide
      · split
        · decide
        · decide

/-- Witness for `absent_both_no_direct`. -/
theorem absent_both_no_direct_w :
    (NarratorRecord.mk "A" 100 150 [] none [5] []).scholar_index = none ∧
    (NarratorRecord.mk "B" 120 180 [] none [7] []).scholar_index = none ∧
    (is_teacher ⟨"A", 100, 150, [], none, [5], []⟩ ⟨"B", 120, 180, [], none, [7], []⟩ = false ∧
      is_student ⟨"A", 100, 150, [], none, [5], []⟩ ⟨"B", 120, 180, [], none, [7], []⟩ = false ∧
      (evaluate ⟨"A", 100, 150, [], none, [5], []⟩
        ⟨"B", 120, 180, [], none, [7], []⟩).status ≠ "🟢 Silsilah muttasilah") :=
  ⟨rfl, rfl, absent_both_no_direct _ _ rfl rfl⟩

/-- Claim C5: `overlap_years` is computed as
`max(0, min(deaths) - max(births))` and is never negative. -/
theorem overlap_formula (ra rb : NarratorRecord) :
    (evaluate ra rb).overlap_years =
      max 0 (min ra.death_greg rb.death_greg - max ra.birth_greg rb.birth_greg) ∧
    0 ≤ (evaluate ra rb).overlap_years :=
  ⟨rfl, le_max_left _ _⟩

/-- Claim C6: swapping the arguments leaves `overlap_years` and
`shared_cities` unchanged. -/
theorem overlap_geo_symm (A B : NarratorRecord) :
    (evaluate A B).overlap_years = (evaluate B A).overlap_years ∧
    (evaluate A B).shared_cities = (evaluate B A).shared_cities := by
  constructor
  · show overlap_years A B = overlap_years B A
    unfold overlap_years
    rw [min_comm, max_comm A.birth_greg B.birth_greg]
  · show common A B = common B A
    unfold common
    exact Finset.inter_comm _ _

/-- Claim C2, counterexample: the empty (or whitespace-only) query
normalizes to `""`, which is a substring of every pool entry (Python:
`"" in s` is `True`), so the resolver returns pool entries, not `[]`. -/
theorem empty_query_matches_all :
    searchNarrators "" ["Malik"] (7/10) 8 = ["Malik"] ∧
    searchNarrators "   " ["Malik", "Anas"] (7/10) 8 = ["Malik", "Anas"] := by
  constructor <;> decide

/-- Claim C2, amended: a query that is empty after lowering and trimming
makes the substring pass match every pool entry, so the resolver returns
the first `min n |pool|` pool entries, i.e. `pool.take n`; the result is
empty exactly when the pool is empty. -/
theorem empty_query_take (q : String) (pool : List String) (cutoff : ℚ) (n : ℕ)
    (h : normQuery q = []) :
    searchNarrators q pool cutoff n = pool.take n := by
  have hsub : substrPass q pool = pool := by
    unfold substrPass
    rw [h, List.filter_eq_self]
    intro c _
    exact listContains_nil _
  unfold searchNarrators
  rw [hsub]
  cases pool with
  | nil => simp
  | cons p ps => rfl

/-- Witness for `empty_query_take` on a whitespace query. -/
theorem empty_query_take_w :
    (normQuery "  " = []) ∧
    searchNarrators "  " ["Malik", "Anas", "Ali"] (7/10) 2 = ["Malik", "Anas", "Ali"].take 2 :=
  ⟨by decide, empty_query_take "  " ["Malik", "Anas", "Ali"] (7/10) 2 (by decide)⟩

/-- Claim C7: when the substring pass is non-empty the resolver returns its
first `n` entries — a filter of the pool, hence in original pool order —
and the fuzzy logic contributes nothing; on the spec's example pool the
query `"mal"` returns `["Malik", "Malek"]`. -/
theorem substr_priority :
    (∀ (q : String) (pool : List String) (cutoff : ℚ) (n : ℕ), substrPass q pool ≠ [] →
      searchNarrators q pool cutoff n = (substrPass q pool).take n ∧
      List.Sublist (substrPass q pool) pool) ∧
    searchNarrators "mal" ["Malik", "Malek", "Anas"] (7/10) 8 = ["Malik", "Malek"] := by
  constructor
  · intro q pool cutoff n h
    refine ⟨?_, List.filter_sublist _⟩
    unfold searchNarrators
    rw [if_neg]
    simp only [List.isEmpty_iff]
    exact h
  · decide

/-- Witness for `substr_priority` on the spec's example. -/
theorem substr_priority_w :
    substrPass "mal" ["Malik", "Malek", "Anas"] ≠ [] ∧
    (searchNarrators "mal" ["Malik", "Malek", "Anas"] (7/10) 8 =
      (substrPass "mal" ["Malik", "Malek", "Anas"]).take 8 ∧
    List.Sublist (substrPass "mal" ["Malik", "Malek", "Anas"]) ["Malik", "Malek", "Anas"]) :=
  ⟨by decide, substr_priority.1 "mal" ["Malik", "Malek", "Anas"] (7/10) 8 (by decide)⟩

/-- Claim C8: `validate_chain` is the in-order monadic map of the pair
evaluator over the consecutive pairs, and when every identifier resolves it
succeeds with exactly `max(0, len - 1)` verdicts (ℕ-subtraction `len - 1`);
length 0 or 1 gives `some []`. -/
theorem chain_one_verdict_per_pair (repo : List NarratorRecord) (ids : List String)
    (h : ∀ s ∈ ids, (lookupNarrator repo s).isSome) :
    validate_chain repo ids = (chainPairs ids).mapM (pairEval repo) ∧
    ∃ vs, validate_chain repo ids = some vs ∧ vs.length = ids.length - 1 := by
  refine ⟨validate_chain_eq_mapM repo ids, ?_⟩
  have hall : ∀ p ∈ chainPairs ids, (pairEval repo p).isSome := by
    intro p hp
    obtain ⟨hp1, hp2⟩ := List.of_mem_zip hp
    have h1 := h p.1 hp1
    have h2 := h p.2 (List.mem_of_mem_tail hp2)
    obtain ⟨ra, hra⟩ := Option.isSome_iff_exists.mp h1
    obtain ⟨rb, hrb⟩ := Option.isSome_iff_exists.mp h2
    simp [pairEval, hra, hrb]
  obtain ⟨vs, hvs, hlen⟩ := mapM_isSome (pairEval repo) (chainPairs ids) hall
  refine ⟨vs, by rw [validate_chain_eq_mapM repo ids, hvs], ?_⟩
  rw [hlen]
  unfold chainPairs
  rw [List.length_zip, List.length_tail]
  omega

/-- Witness for `chain_one_verdict_per_pair` on a two-element chain. -/
theorem chain_one_verdict_per_pair_w :
    (∀ s ∈ ["A", "B"],
      (lookupNarrator [⟨"A", 100, 150, [], none, [], []⟩, ⟨"B", 120, 180, [], none, [], []⟩]
        s).isSome) ∧
    (validate_chain [⟨"A", 100, 150, [], none, [], []⟩, ⟨"B", 120, 180, [], none, [], []⟩]
        ["A", "B"] =
      (chainPairs ["A", "B"]).mapM
        (pairEval [⟨"A", 100, 150, [], none, [], []⟩, ⟨"B", 120, 180, [], none, [], []⟩]) ∧
    ∃ vs, validate_chain [⟨"A", 100, 150, [], none, [], []⟩, ⟨"B", 120, 180, [], none, [], []⟩]
        ["A", "B"] = some vs ∧ vs.length = (["A", "B"] : List String).length - 1) :=
  ⟨by decide, chain_one_verdict_per_pair _ ["A", "B"] (by decide)⟩

/-- Claim C9, counterexample: a one-element chain whose identifier is
absent from the repository is not a fatal error — the loop never runs, no
lookup happens, and the result is `some []`, not a propagated failure. -/
theorem missing_single_no_error :
    lookupNarrator [] "ghost" = none ∧ validate_chain [] ["ghost"] = some [] :=
  ⟨rfl, rfl⟩

/-- Claim C9, amended: on a chain of length at least 2 — the only case in
which the validation loop runs — any identifier missing from the
repository makes the whole `validate_chain` call fail (`none`), with no
empty or partial result. -/
theorem missing_id_fatal (repo : List NarratorRecord) (ids : List String)
    (h2 : 2 ≤ ids.length) (hm : ∃ s ∈ ids, lookupNarrator repo s = none) :
    validate_chain repo ids = none := by
  obtain ⟨s, hs, hnone⟩ := hm
  cases hv : validate_chain repo ids with
  | none => rfl
  | some vs =>
    exfalso
    rw [validate_chain_eq_mapM repo ids] at hv
    obtain ⟨p, hp, hps⟩ := mem_chainPairs_of_mem ids s h2 hs
    have := mapM_some_mem (pairEval repo) (chainPairs ids) vs hv p hp
    rcases hps with h1 | h2'
    · rw [pairEval, h1, hnone] at this
      simp at this
    · rw [pairEval, h2', hnone] at this
      cases lookupNarrator repo p.1 <;> simp at this

/-- Witness for `missing_id_fatal`. -/
theorem missing_id_fatal_w :
    2 ≤ (["A", "ghost"] : List String).length ∧
    validate_chain [⟨"A", 100, 150, [], none, [], []⟩] ["A", "ghost"] = none :=
  ⟨by decide, missing_id_fatal [⟨"A", 100, 150, [], none, [], []⟩] ["A", "ghost"]
    (by decide) ⟨"ghost", by decide, by decide⟩⟩

/-- Claim C10: a duplicated consecutive identifier is not rejected; the
self-pair is evaluated by the ordinary rules, its overlap is
`max(0, death - birth)`, its shared cities are the narrator's whole city
set, and the direct relation holds exactly when the narrator's own
`scholar_index` occurs in their own `students_index` or `teachers_index`. -/
theorem self_pair_evaluated (repo : List NarratorRecord) (nm : String) (r : NarratorRecord)
    (h : lookupNarrator repo nm = some r) :
    validate_chain repo [nm, nm] = some [evaluate r r] ∧
    (evaluate r r).overlap_years = max 0 (r.death_greg - r.birth_greg) ∧
    (evaluate r r).shared_cities = r.cities.toFinset ∧
    ((is_teacher r r || is_student r r) = true ↔
      (idxMem r.scholar_index r.students_index = true ∨
        idxMem r.scholar_index r.teachers_index = true)) := by
  refine ⟨?_, ?_, ?_, ?_⟩
  · rw [validate_chain_cons, h]
    rfl
  · show overlap_years r r = _
    unfold overlap_years
    rw [min_self, max_self]
  · show common r r = _
    unfold common
    exact Finset.inter_self _
  · simp only [is_teacher, is_student, Bool.or_eq_true]
    tauto

/-- Claim C3, counterexample: pool `["abxd", "abc"]`, query `"abcd"`, no
substring match; both entries reach the 0.7 cutoff, `"abc"` scores 6/7 and
`"abxd"` only 6/8, yet the resolver returns `["abxd", "abc"]` — original
pool order, with the strictly better match second — not the
descending-similarity order `["abc", "abxd"]` the claim requires. -/
theorem fuzzy_not_similarity_sorted :
    searchNarrators "abcd" ["abxd", "abc"] (7/10) 8 = ["abxd", "abc"] ∧
    (7 : ℚ)/10 ≤ ratioQ (lowerStr "abxd") (normQuery "abcd") ∧
    (7 : ℚ)/10 ≤ ratioQ (lowerStr "abc") (normQuery "abcd") ∧
    ratioQ (lowerStr "abxd") (normQuery "abcd") <
      ratioQ (lowerStr "abc") (normQuery "abcd") := by
  have hx : ratioPair (lowerStr "abxd") (normQuery "abcd") = (6, 8) := by decide
  have hc : ratioPair (lowerStr "abc") (normQuery "abcd") = (6, 7) := by decide
  refine ⟨?_, ?_, ?_, ?_⟩
  · rw [← cutoff07_eq]
    decide
  · unfold ratioQ
    rw [hx]
    norm_num
  · unfold ratioQ
    rw [hc]
    norm_num
  · unfold ratioQ
    rw [hx, hc]
    norm_num

/-- Claim C3, amended: when the substring pass is empty, the resolver
returns the pool entries whose lowercased form lies in the
`get_close_matches` selection — the at most `n = 8` best-scoring entries
with ratio ≥ 0.7, ranked by descending `(ratio, string)` — but it lists
them in original pool order (a filter of the pool), not sorted by
descending similarity; every returned entry scores at least the cutoff. -/
theorem fuzzy_filter_characterization (q : String) (pool : List String)
    (h : substrPass q pool = []) :
    searchNarrators q pool (7/10) 8 =
      pool.filter (fun c =>
        (getCloseMatches (normQuery q) (pool.map lowerStr) 8 (7/10)).contains (lowerStr c)) ∧
    List.Sublist (searchNarrators q pool (7/10) 8) pool ∧
    ∀ c ∈ searchNarrators q pool (7/10) 8, (7 : ℚ)/10 ≤ ratioQ (lowerStr c) (normQuery q) := by
  have hmain : searchNarrators q pool (7/10) 8 =
      pool.filter (fun c =>
        (getCloseMatches (normQuery q) (pool.map lowerStr) 8 (7/10)).contains (lowerStr c)) := by
    simp only [searchNarrators, h, List.isEmpty_nil, if_true]
  refine ⟨hmain, ?_, ?_⟩
  · rw [hmain]
    exact List.filter_sublist _
  · intro c hc
    rw [hmain, List.mem_filter] at hc
    have hmem : lowerStr c ∈ getCloseMatches (normQuery q) (pool.map lowerStr) 8 (7/10) := by
      have := hc.2
      simpa using this
    exact mem_getCloseMatches hmem

/-- Witness for `fuzzy_filter_characterization` on the counterexample
pool. -/
theorem fuzzy_filter_characterization_w :
    substrPass "abcd" ["abxd", "abc"] = [] ∧
    (searchNarrators "abcd" ["abxd", "abc"] (7/10) 8 =
      (["abxd", "abc"] : List String).filter (fun c =>
        (getCloseMatches (normQuery "abcd") ((["abxd", "abc"] : List String).map lowerStr) 8
          (7/10)).contains (lowerStr c)) ∧
    List.Sublist (searchNarrators "abcd" ["abxd", "abc"] (7/10) 8) ["abxd", "abc"] ∧
    ∀ c ∈ searchNarrators "abcd" ["abxd", "abc"] (7/10) 8,
      (7 : ℚ)/10 ≤ ratioQ (lowerStr c) (normQuery "abcd")) :=
  ⟨by decide, fuzzy_filter_characterization "abcd" ["abxd", "abc"] (by decide)⟩

/-- Witness for `self_pair_evaluated`: a narrator listed among their own
teachers, repeated in the chain. -/
theorem self_pair_evaluated_w :
    lookupNarrator [⟨"A", 100, 150, ["kufa"], some 1, [], [1]⟩] "A" =
      some ⟨"A", 100, 150, ["kufa"], some 1, [], [1]⟩ ∧
    (validate_chain [⟨"A", 100, 150, ["kufa"], some 1, [], [1]⟩] ["A", "A"] =
      some [evaluate ⟨"A", 100, 150, ["kufa"], some 1, [], [1]⟩
        ⟨"A", 100, 150, ["kufa"], some 1, [], [1]⟩] ∧
    (evaluate ⟨"A", 100, 150, ["kufa"], some 1, [], [1]⟩
      ⟨"A", 100, 150, ["kufa"], some 1, [], [1]⟩).overlap_years = max 0 (150 - 100) ∧
    (evaluate ⟨"A", 100, 150, ["kufa"], some 1, [], [1]⟩
      ⟨"A", 100, 150, ["kufa"], some 1, [], [1]⟩).shared_cities =
      (["kufa"] : List String).toFinset ∧
    ((is_teacher ⟨"A", 100, 150, ["kufa"], some 1, [], [1]⟩
        ⟨"A", 100, 150, ["kufa"], some 1, [], [1]⟩ ||
      is_student ⟨"A", 100, 150, ["kufa"], some 1, [], [1]⟩
        ⟨"A", 100, 150, ["kufa"], some 1, [], [1]⟩) = true ↔
      (idxMem (some 1) [] = true ∨ idxMem (some 1) [1] = true))) :=
  ⟨by decide, self_pair_evaluated _ "A" _ (by decide)⟩
